import Mathlib

/-!
Verification of the SQL guardrail layer of SQLDBAgent.

The guardrail is the method SafeSQLTool._run, which appears with
character-identical bodies in 03_guardrailed_agent.py (lines 94-115) and
04_complex_queries.py (lines 94-115).  The Python string and regex
operations used there are modelled over ASCII text as functions on
List Char:

  sql.strip().rstrip of semicolons      ->  normalizeText        (line 94)
  re.search of the write keywords, re.I ->  hasWriteKw       (line 96)
  semicolon membership test             ->  hasSemi          (line 99)
  re.match of the select anchor         ->  startsSelect     (line 102)
  re.search of the limit clause         ->  hasLimit         (line 105)
  re.search of the aggregates           ->  hasAgg           (line 105)

Whitespace, word characters and case folding are the ASCII ones, which
agrees with the Python semantics on ASCII input.
-/

/-- ASCII whitespace: the characters stripped by str.strip and matched by
the whitespace class of the regexes on ASCII text. -/
def isSpace (c : Char) : Bool :=
  c == ' ' || c == '\t' || c == '\n' || c == '\r' || c == '\x0b' || c == '\x0c'

/-- ASCII word characters, the class used by the regex word boundary. -/
def isWordChar (c : Char) : Bool :=
  c.isAlpha || c.isDigit || c == '_'

/-- Case-insensitive character comparison (ASCII case folding). -/
def ciEq (a b : Char) : Bool :=
  a.toLower == b.toLower

/-- Case-insensitive test that tok occurs at the head of z. -/
def startsWithCI : List Char → List Char → Bool
  | [], _ => true
  | _ :: _, [] => false
  | a :: ts, c :: cs => ciEq a c && startsWithCI ts cs

/-- The position after a match is a word boundary: end of text or a
non-word character. -/
def boundaryOk : List Char → Bool
  | [] => true
  | c :: _ => !(isWordChar c)

/-- tok matches at the head of z and is followed by a word boundary. -/
def tokenAt (tok z : List Char) : Bool :=
  startsWithCI tok z && boundaryOk (z.drop tok.length)

/-- Some token of toks matches at the head of z with a trailing boundary. -/
def anyTokenAt (toks : List (List Char)) (z : List Char) : Bool :=
  toks.any fun tok => tokenAt tok z

/-- re.search of a pattern with a leading word boundary: the matcher m is
tried at every position; prevOk records whether the character before the
current position allows a boundary (non-word, or start of text). -/
def searchWB (m : List Char → Bool) (prevOk : Bool) : List Char → Bool
  | [] => prevOk && m []
  | c :: cs => (prevOk && m (c :: cs)) || searchWB m (!(isWordChar c)) cs

/-- The write-operation keywords of the guard regex on line 96. -/
def writeTokens : List (List Char) :=
  [ ['I','N','S','E','R','T'], ['U','P','D','A','T','E'], ['D','E','L','E','T','E'],
    ['D','R','O','P'], ['T','R','U','N','C','A','T','E'], ['A','L','T','E','R'],
    ['C','R','E','A','T','E'], ['R','E','P','L','A','C','E'] ]

/-- Line 96: case-insensitive whole-word search for a write keyword. -/
def hasWriteKw (s : List Char) : Bool :=
  searchWB (anyTokenAt writeTokens) true s

def isSemi (c : Char) : Bool := c == ';'

/-- Line 99: the semicolon membership test on the normalized text. -/
def hasSemi (s : List Char) : Bool := s.any isSemi

def selectTok : List Char := ['s','e','l','e','c','t']

/-- Line 102: re.match of the anchored select pattern, case-insensitive,
leading whitespace allowed, with a word boundary after the keyword. -/
def startsSelect (s : List Char) : Bool :=
  tokenAt selectTok (s.dropWhile isSpace)

/-- After the first digit of a limit clause: further digits, then a word
boundary. -/
def afterDigit : List Char → Bool
  | [] => true
  | c :: cs => if c.isDigit then afterDigit cs else !(isWordChar c)

/-- After the first whitespace of a limit clause: further whitespace, then
at least one digit. -/
def afterSpace : List Char → Bool
  | [] => false
  | c :: cs => if isSpace c then afterSpace cs else (c.isDigit && afterDigit cs)

/-- The tail of the limit pattern: at least one whitespace character, then
digits, then a boundary. -/
def needSpace : List Char → Bool
  | [] => false
  | c :: cs => isSpace c && afterSpace cs

def limitTok : List Char := ['l','i','m','i','t']

/-- The limit-clause matcher at one position. -/
def mLimit (z : List Char) : Bool :=
  startsWithCI limitTok z && needSpace (z.drop limitTok.length)

/-- Line 105, first search: an explicit row-limiting clause. -/
def hasLimit (s : List Char) : Bool :=
  searchWB mLimit true s

def byTok : List Char := ['b','y']

/-- After the first whitespace of group-by: skip further whitespace, then
the word by with a trailing boundary. -/
def spacesBy : List Char → Bool
  | [] => false
  | c :: cs => if isSpace c then spacesBy cs else tokenAt byTok (c :: cs)

/-- The tail of the group-by pattern: at least one whitespace character,
then the word by. -/
def needSpaceBy : List Char → Bool
  | [] => false
  | c :: cs => isSpace c && spacesBy cs

def groupTok : List Char := ['g','r','o','u','p']

/-- The aggregate alternation matcher at one position. -/
def mAgg (z : List Char) : Bool :=
  startsWithCI ['c','o','u','n','t','('] z ||
  (startsWithCI groupTok z && needSpaceBy (z.drop groupTok.length)) ||
  startsWithCI ['s','u','m','('] z ||
  startsWithCI ['a','v','g','('] z ||
  startsWithCI ['m','a','x','('] z ||
  startsWithCI ['m','i','n','('] z

/-- Line 105, second search: an aggregate or grouping construct. -/
def hasAgg (s : List Char) : Bool :=
  searchWB mAgg true s

/-- Remove the longest suffix of characters satisfying p. -/
def rdropWhile (p : Char → Bool) (l : List Char) : List Char :=
  (l.reverse.dropWhile p).reverse

/-- Python str.strip: remove leading and trailing whitespace. -/
def stripWS (l : List Char) : List Char :=
  rdropWhile isSpace (l.dropWhile isSpace)

/-- Remove trailing whitespace only. -/
def rstripWS (l : List Char) : List Char :=
  rdropWhile isSpace l

/-- Python rstrip of the semicolon set: remove all trailing semicolons. -/
def rstripSemis (l : List Char) : List Char :=
  rdropWhile isSemi l

/-- Step 1 of the guard, line 94. -/
def normalizeText (sql : List Char) : List Char :=
  rstripSemis (stripWS sql)

/-- The text appended by the bounding rewrite on line 106. -/
def appendLimit : List Char :=
  [' ','L','I','M','I','T',' ','2','0','0']

inductive RejectReason where
  | writeOperationForbidden
  | multipleStatementsForbidden
  | onlySelectAllowed
  deriving DecidableEq

inductive AdmissionVerdict where
  | accepted (finalText : List Char)
  | rejected (reason : RejectReason)
  deriving DecidableEq

/-- The rejection strings returned on lines 97, 100 and 103. -/
def renderReason : RejectReason → List Char
  | .writeOperationForbidden => ("ERROR: write operations are not allowed.".toList)
  | .multipleStatementsForbidden => ("ERROR: multiple statements are not allowed.".toList)
  | .onlySelectAllowed => ("ERROR: only SELECT statements are allowed.".toList)

/-- The admission filter of SafeSQLTool run in 03_guardrailed_agent.py,
lines 94 to 106: the pure validation and rewriting part of the method,
with the early returns of the Python code as ordered branches. -/
def admission (sql : List Char) : AdmissionVerdict :=
  if hasWriteKw (normalizeText sql) = true then .rejected .writeOperationForbidden
  else if hasSemi (normalizeText sql) = true then .rejected .multipleStatementsForbidden
  else if startsSelect (normalizeText sql) = false then .rejected .onlySelectAllowed
  else if hasLimit (normalizeText sql) = false ∧ hasAgg (normalizeText sql) = false then
    .accepted (normalizeText sql ++ appendLimit)
  else .accepted (normalizeText sql)

/-- Outcome of the driver call on lines 109 to 113: column names with the
materialized rows, or the diagnostic text of a raised error. -/
inductive ExecOutcome (α : Type) where
  | ok (columns : List (List Char)) (rows : List α)
  | fail (msg : List Char)

/-- The value returned by the run method: a plain string or the structured
columns-and-rows payload. -/
inductive RunResult (α : Type) where
  | str (s : List Char)
  | dict (columns : List (List Char)) (rows : List α)
  deriving DecidableEq

/-- SafeSQLTool run of 03_guardrailed_agent.py, lines 94 to 115, with the
database boundary abstracted as exec. -/
def runTool {α : Type} (exec : List Char → ExecOutcome α) (sql : List Char) :
    RunResult α :=
  match admission sql with
  | .rejected r => .str (renderReason r)
  | .accepted t =>
    match exec t with
    | .ok cols rows => .dict cols rows
    | .fail m => .str (("ERROR: ".toList) ++ m)

/-- runTool instrumented with the list of statements handed to the driver:
the code reaches the connection block on lines 108 to 115 only after all
early returns are passed. -/
def runToolTraced {α : Type} (exec : List Char → ExecOutcome α) (sql : List Char) :
    RunResult α × List (List Char) :=
  match admission sql with
  | .rejected r => (.str (renderReason r), [])
  | .accepted t =>
    match exec t with
    | .ok cols rows => (.dict cols rows, [t])
    | .fail m => (.str (("ERROR: ".toList) ++ m), [t])

/-- A degenerate execution adapter, used to instantiate generic results. -/
def trivialExec : List Char → ExecOutcome Unit := fun _ => .fail []

/-- The admission filter of SafeSQLTool run in 04_complex_queries.py,
lines 94 to 106; the Python body is character-identical to the one in
03_guardrailed_agent.py. -/
def admission04 (sql : List Char) : AdmissionVerdict :=
  if hasWriteKw (normalizeText sql) = true then .rejected .writeOperationForbidden
  else if hasSemi (normalizeText sql) = true then .rejected .multipleStatementsForbidden
  else if startsSelect (normalizeText sql) = false then .rejected .onlySelectAllowed
  else if hasLimit (normalizeText sql) = false ∧ hasAgg (normalizeText sql) = false then
    .accepted (normalizeText sql ++ appendLimit)
  else .accepted (normalizeText sql)

/-- SafeSQLTool run of 04_complex_queries.py, lines 94 to 115. -/
def runTool04 {α : Type} (exec : List Char → ExecOutcome α) (sql : List Char) :
    RunResult α :=
  match admission04 sql with
  | .rejected r => .str (renderReason r)
  | .accepted t =>
    match exec t with
    | .ok cols rows => .dict cols rows
    | .fail m => .str (("ERROR: ".toList) ++ m)

/-! Character-level facts. -/

theorem isSpace_elim {c : Char} (h : isSpace c = true) :
    c = ' ' ∨ c = '\t' ∨ c = '\n' ∨ c = '\r' ∨ c = '\x0b' ∨ c = '\x0c' := by
  simp only [isSpace, Bool.or_eq_true, beq_iff_eq] at h
  tauto

theorem toLower_of_space {c : Char} (h : isSpace c = true) : c.toLower = c := by
  rcases isSpace_elim h with h | h | h | h | h | h <;> subst h <;> decide

theorem space_not_word {c : Char} (h : isSpace c = true) : isWordChar c = false := by
  rcases isSpace_elim h with h | h | h | h | h | h <;> subst h <;> decide

theorem space_not_digit {c : Char} (h : isSpace c = true) : c.isDigit = false := by
  rcases isSpace_elim h with h | h | h | h | h | h <;> subst h <;> decide

theorem ciEq_space_right {a y : Char} (ha : isSpace a.toLower = false)
    (hy : isSpace y = true) : ciEq a y = false := by
  have hyl : y.toLower = y := toLower_of_space hy
  rw [ciEq, hyl]
  cases hbe : a.toLower == y with
  | false => rfl
  | true =>
    have he : a.toLower = y := by simpa using hbe
    rw [he, hy] at ha
    exact absurd ha (by decide)

theorem ciEq_all_space {t : List Char} {y : Char}
    (hall : ∀ a ∈ t, isSpace a.toLower = false) (hy : isSpace y = true) :
    ∀ a ∈ t, ciEq a y = false :=
  fun a ha => ciEq_space_right (hall a ha) hy

/-! List utilities for the strip operations. -/

theorem dropWhile_head_false {p : Char → Bool} :
    ∀ (l : List Char) (c : Char) (cs : List Char), l.dropWhile p = c :: cs → p c = false := by
  intro l
  induction l with
  | nil => intro c cs h; exact absurd h (by simp)
  | cons a l ih =>
    intro c cs h
    by_cases hp : p a = true
    · rw [List.dropWhile_cons_of_pos hp] at h
      exact ih c cs h
    · rw [List.dropWhile_cons_of_neg hp] at h
      cases h
      exact eq_false_of_ne_true hp

theorem takeWhile_all {p : Char → Bool} (l : List Char) :
    (l.takeWhile p).all p = true := by
  induction l with
  | nil => rfl
  | cons a l ih =>
    by_cases hp : p a = true
    · rw [List.takeWhile_cons_of_pos hp]
      simp [List.all_cons, hp, ih]
    · rw [List.takeWhile_cons_of_neg hp]
      rfl

theorem rdropWhile_decomp (p : Char → Bool) (l : List Char) :
    ∃ ws, l = rdropWhile p l ++ ws ∧ ws.all p = true := by
  refine ⟨(l.reverse.takeWhile p).reverse, ?_, ?_⟩
  · conv_lhs => rw [← List.reverse_reverse l,
      ← List.takeWhile_append_dropWhile (p := p) (l := l.reverse)]
    rw [List.reverse_append, rdropWhile]
  · rw [List.all_eq_true]
    intro x hx
    exact List.mem_takeWhile_imp (List.mem_reverse.mp hx)

theorem rdropWhile_last_false (p : Char → Bool) (l : List Char) :
    rdropWhile p l = [] ∨
      ∃ c cs, rdropWhile p l = cs ++ [c] ∧ p c = false := by
  rw [rdropWhile]
  cases hd : l.reverse.dropWhile p with
  | nil => exact Or.inl rfl
  | cons c cs =>
    refine Or.inr ⟨c, cs.reverse, ?_, dropWhile_head_false _ _ _ hd⟩
    rw [List.reverse_cons]

theorem rdropWhile_id {p : Char → Bool} {l : List Char}
    (h : ∀ c cs, l.reverse = c :: cs → p c = false) : rdropWhile p l = l := by
  rw [rdropWhile]
  cases hr : l.reverse with
  | nil =>
    have : l = [] := by simpa using congrArg List.reverse hr
    simp [this]
  | cons c cs =>
    rw [List.dropWhile_cons_of_neg (by rw [h c cs hr]; exact Bool.false_ne_true)]
    rw [← hr, List.reverse_reverse]

theorem dropWhile_eq_self_of_head {p : Char → Bool} {l : List Char}
    (h : ∀ c cs, l = c :: cs → p c = false) : l.dropWhile p = l := by
  cases l with
  | nil => rfl
  | cons c cs =>
    exact List.dropWhile_cons_of_neg (by rw [h c cs rfl]; exact Bool.false_ne_true)

theorem any_false_mem {p : Char → Bool} {l : List Char} {x : Char}
    (h : l.any p = false) (hx : x ∈ l) : p x = false := by
  have := List.any_eq_false.mp h x hx
  exact eq_false_of_ne_true this

theorem all_eq_replicate {c : Char} :
    ∀ ws : List Char, ws.all (· == c) = true → ws = List.replicate ws.length c := by
  intro ws
  induction ws with
  | nil => intro _; rfl
  | cons a ws ih =>
    intro h
    rw [List.all_cons, Bool.and_eq_true] at h
    have ha : a = c := by simpa using h.1
    rw [List.length_cons, List.replicate_succ, ha, ← ih h.2]

/-! Locality of the position matchers: a matcher that fails on a text also
fails on the text extended by a suffix whose first character can neither
continue a token nor be a word character. -/

theorem swci_length : ∀ (t z : List Char), startsWithCI t z = true → t.length ≤ z.length := by
  intro t
  induction t with
  | nil => intro z _; simp
  | cons a ts ih =>
    intro z h
    cases z with
    | nil => exact absurd h (by simp [startsWithCI])
    | cons c cs =>
      rw [startsWithCI, Bool.and_eq_true] at h
      simpa using ih cs h.2

theorem swci_append : ∀ (t z u : List Char),
    startsWithCI t z = true → startsWithCI t (z ++ u) = true := by
  intro t
  induction t with
  | nil => intro z u _; rfl
  | cons a ts ih =>
    intro z u h
    cases z with
    | nil => exact absurd h (by simp [startsWithCI])
    | cons c cs =>
      rw [startsWithCI, Bool.and_eq_true] at h
      rw [List.cons_append, startsWithCI, Bool.and_eq_true]
      exact ⟨h.1, ih cs u h.2⟩

theorem swci_nospan {y : Char} {ys : List Char} :
    ∀ (t z : List Char), (∀ a ∈ t, ciEq a y = false) →
      startsWithCI t (z ++ y :: ys) = true →
      t.length ≤ z.length ∧ startsWithCI t z = true := by
  intro t
  induction t with
  | nil => intro z _ _; simp [startsWithCI]
  | cons a ts ih =>
    intro z htok h
    cases z with
    | nil =>
      rw [List.nil_append, startsWithCI, Bool.and_eq_true] at h
      rw [htok a (List.mem_cons_self a ts)] at h
      exact absurd h.1 (by decide)
    | cons c cs =>
      rw [List.cons_append, startsWithCI, Bool.and_eq_true] at h
      have := ih cs (fun b hb => htok b (List.mem_cons_of_mem a hb)) h.2
      constructor
      · simpa using this.1
      · rw [startsWithCI, Bool.and_eq_true]
        exact ⟨h.1, this.2⟩

theorem swci_append_eq (t : List Char) {y : Char} {ys : List Char} {z : List Char}
    (htok : ∀ a ∈ t, ciEq a y = false) :
    startsWithCI t (z ++ y :: ys) = startsWithCI t z := by
  cases hz : startsWithCI t z with
  | true => exact swci_append t z (y :: ys) hz
  | false =>
    cases happ : startsWithCI t (z ++ y :: ys) with
    | true => rw [(swci_nospan t z htok happ).2] at hz; exact hz
    | false => rfl

theorem swciTail_append_eq (tok : List Char) (tail : List Char → Bool)
    {y : Char} {ys : List Char} (z : List Char)
    (htok : ∀ a ∈ tok, ciEq a y = false)
    (htail : ∀ w, tail (w ++ y :: ys) = tail w) :
    (startsWithCI tok (z ++ y :: ys) && tail ((z ++ y :: ys).drop tok.length)) =
      (startsWithCI tok z && tail (z.drop tok.length)) := by
  cases hz : startsWithCI tok z with
  | true =>
    rw [swci_append tok z (y :: ys) hz]
    rw [List.drop_append_of_le_length (swci_length tok z hz)]
    rw [htail (z.drop tok.length)]
  | false =>
    rw [swci_append_eq tok htok, hz, Bool.false_and, Bool.false_and]

theorem boundaryOk_append {y : Char} (ys : List Char) (hy : isWordChar y = false) :
    ∀ w, boundaryOk (w ++ y :: ys) = boundaryOk w := by
  intro w
  cases w with
  | nil => simp [boundaryOk, hy]
  | cons c cs => rfl

theorem tokenAt_append_eq {tok : List Char} {y : Char} {ys : List Char} (z : List Char)
    (htok : ∀ a ∈ tok, ciEq a y = false) (hy : isWordChar y = false) :
    tokenAt tok (z ++ y :: ys) = tokenAt tok z :=
  swciTail_append_eq tok boundaryOk z htok (boundaryOk_append ys hy)

theorem anyTokenAt_append_eq {y : Char} {ys : List Char} (toks : List (List Char))
    (htoks : ∀ tk ∈ toks, ∀ a ∈ tk, ciEq a y = false) (hy : isWordChar y = false)
    (z : List Char) :
    anyTokenAt toks (z ++ y :: ys) = anyTokenAt toks z := by
  induction toks with
  | nil => rfl
  | cons tk toks ih =>
    rw [anyTokenAt, List.any_cons, anyTokenAt, List.any_cons]
    rw [tokenAt_append_eq z (htoks tk (List.mem_cons_self tk toks)) hy]
    have := ih fun tk2 h2 => htoks tk2 (List.mem_cons_of_mem tk h2)
    rw [anyTokenAt, anyTokenAt] at this
    rw [this]

/-! Search lemmas: how a whole-text search behaves on an appended text. -/

theorem searchWB_append_eq (m : List Char → Bool) (ys : List Char)
    (hm0 : m [] = false) (hys : ∀ p, searchWB m p ys = false)
    (hloc : ∀ z, z ≠ [] → m (z ++ ys) = m z) :
    ∀ (xs : List Char) (p : Bool), searchWB m p (xs ++ ys) = searchWB m p xs := by
  intro xs
  induction xs with
  | nil =>
    intro p
    rw [List.nil_append, hys p, searchWB, hm0, Bool.and_false]
  | cons c cs ih =>
    intro p
    rw [List.cons_append, searchWB, searchWB]
    rw [← List.cons_append, hloc (c :: cs) (by simp)]
    rw [ih (!(isWordChar c))]

theorem searchWB_append_true (m : List Char → Bool) (ys : List Char)
    (hys : ∀ p, searchWB m p ys = true) :
    ∀ (xs : List Char) (p : Bool), searchWB m p (xs ++ ys) = true := by
  intro xs
  induction xs with
  | nil => intro p; rw [List.nil_append]; exact hys p
  | cons c cs ih =>
    intro p
    rw [List.cons_append, searchWB, ih (!(isWordChar c)), Bool.or_true]

theorem searchWB_spaces (m : List Char → Bool) (hm0 : m [] = false)
    (hmsp : ∀ (y : Char) (zs : List Char), isSpace y = true → m (y :: zs) = false) :
    ∀ ws : List Char, ws.all isSpace = true → ∀ p, searchWB m p ws = false := by
  intro ws
  induction ws with
  | nil => intro _ p; rw [searchWB, hm0, Bool.and_false]
  | cons y ws ih =>
    intro h p
    rw [List.all_cons, Bool.and_eq_true] at h
    rw [searchWB, hmsp y ws h.1, Bool.and_false, Bool.false_or]
    exact ih h.2 _

/-! The position matchers fail on text whose head is whitespace, and fail
on the empty text. -/

theorem swci_head_false {a y : Char} (h : ciEq a y = false) (ts zs : List Char) :
    startsWithCI (a :: ts) (y :: zs) = false := by
  rw [startsWithCI, h, Bool.false_and]

theorem mWrite_empty : anyTokenAt writeTokens [] = false := by decide

theorem mWrite_space {y : Char} (hy : isSpace y = true) (zs : List Char) :
    anyTokenAt writeTokens (y :: zs) = false := by
  have hI : ciEq 'I' y = false := ciEq_space_right (by decide) hy
  have hU : ciEq 'U' y = false := ciEq_space_right (by decide) hy
  have hD : ciEq 'D' y = false := ciEq_space_right (by decide) hy
  have hT : ciEq 'T' y = false := ciEq_space_right (by decide) hy
  have hA : ciEq 'A' y = false := ciEq_space_right (by decide) hy
  have hC : ciEq 'C' y = false := ciEq_space_right (by decide) hy
  have hR : ciEq 'R' y = false := ciEq_space_right (by decide) hy
  simp only [anyTokenAt, writeTokens, List.any_cons, List.any_nil, tokenAt,
    swci_head_false hI, swci_head_false hU, swci_head_false hD,
    swci_head_false hT, swci_head_false hA, swci_head_false hC,
    swci_head_false hR, Bool.false_and, Bool.or_false]

theorem mLimit_empty : mLimit [] = false := by decide

theorem mLimit_space {y : Char} (hy : isSpace y = true) (zs : List Char) :
    mLimit (y :: zs) = false := by
  have hl : ciEq 'l' y = false := ciEq_space_right (by decide) hy
  simp only [mLimit, limitTok, swci_head_false hl, Bool.false_and]

theorem mAgg_empty : mAgg [] = false := by decide

theorem mAgg_space {y : Char} (hy : isSpace y = true) (zs : List Char) :
    mAgg (y :: zs) = false := by
  have hc : ciEq 'c' y = false := ciEq_space_right (by decide) hy
  have hg : ciEq 'g' y = false := ciEq_space_right (by decide) hy
  have hs : ciEq 's' y = false := ciEq_space_right (by decide) hy
  have ha : ciEq 'a' y = false := ciEq_space_right (by decide) hy
  have hm : ciEq 'm' y = false := ciEq_space_right (by decide) hy
  simp only [mAgg, groupTok, swci_head_false hc, swci_head_false hg,
    swci_head_false hs, swci_head_false ha, swci_head_false hm,
    Bool.false_and, Bool.false_or, Bool.or_false]

/-! The variable-length tails of the limit and group-by patterns ignore an
all-whitespace suffix. -/

theorem afterDigit_space_head {y : Char} (hy : isSpace y = true) (zs : List Char) :
    afterDigit (y :: zs) = true := by
  rw [afterDigit, space_not_digit hy, space_not_word hy]
  rfl

theorem afterSpace_spaces :
    ∀ ws : List Char, ws.all isSpace = true → afterSpace ws = false := by
  intro ws
  induction ws with
  | nil => intro _; rfl
  | cons y ws ih =>
    intro h
    rw [List.all_cons, Bool.and_eq_true] at h
    rw [afterSpace, if_pos h.1]
    exact ih h.2

theorem spacesBy_spaces :
    ∀ ws : List Char, ws.all isSpace = true → spacesBy ws = false := by
  intro ws
  induction ws with
  | nil => intro _; rfl
  | cons y ws ih =>
    intro h
    rw [List.all_cons, Bool.and_eq_true] at h
    rw [spacesBy, if_pos h.1]
    exact ih h.2

theorem afterDigit_append_sp {y : Char} {ys : List Char} (hy : isSpace y = true) :
    ∀ w, afterDigit (w ++ y :: ys) = afterDigit w := by
  intro w
  induction w with
  | nil => rw [List.nil_append, afterDigit_space_head hy]; rfl
  | cons c cs ih =>
    rw [List.cons_append, afterDigit, afterDigit]
    cases hc : c.isDigit with
    | true => rw [if_pos rfl, if_pos rfl, ih]
    | false => rw [if_neg (by simp), if_neg (by simp)]

theorem afterSpace_append_sp {y : Char} {ys : List Char} (hy : isSpace y = true)
    (hys : ys.all isSpace = true) :
    ∀ w, afterSpace (w ++ y :: ys) = afterSpace w := by
  intro w
  induction w with
  | nil =>
    rw [List.nil_append]
    show afterSpace (y :: ys) = false
    rw [afterSpace, if_pos hy]
    exact afterSpace_spaces ys hys
  | cons c cs ih =>
    rw [List.cons_append, afterSpace, afterSpace]
    cases hc : isSpace c with
    | true => rw [if_pos rfl, if_pos rfl, ih]
    | false =>
      rw [if_neg (by simp), if_neg (by simp), afterDigit_append_sp hy]

theorem needSpace_append_sp {y : Char} {ys : List Char} (hy : isSpace y = true)
    (hys : ys.all isSpace = true) :
    ∀ w, needSpace (w ++ y :: ys) = needSpace w := by
  intro w
  cases w with
  | nil =>
    rw [List.nil_append]
    show needSpace (y :: ys) = false
    rw [needSpace, hy, afterSpace_spaces ys hys, Bool.and_false]
  | cons c cs =>
    rw [List.cons_append, needSpace, needSpace, afterSpace_append_sp hy hys]

theorem spacesBy_append_sp {y : Char} {ys : List Char} (hy : isSpace y = true)
    (hys : ys.all isSpace = true) :
    ∀ w, spacesBy (w ++ y :: ys) = spacesBy w := by
  intro w
  induction w with
  | nil =>
    rw [List.nil_append]
    show spacesBy (y :: ys) = false
    rw [spacesBy, if_pos hy]
    exact spacesBy_spaces ys hys
  | cons c cs ih =>
    rw [List.cons_append, spacesBy, spacesBy]
    cases hc : isSpace c with
    | true => rw [if_pos rfl, if_pos rfl, ih]
    | false =>
      rw [if_neg (by simp), if_neg (by simp), ← List.cons_append]
      exact tokenAt_append_eq (c :: cs)
        (ciEq_all_space (by decide) hy) (space_not_word hy)

theorem needSpaceBy_append_sp {y : Char} {ys : List Char} (hy : isSpace y = true)
    (hys : ys.all isSpace = true) :
    ∀ w, needSpaceBy (w ++ y :: ys) = needSpaceBy w := by
  intro w
  cases w with
  | nil =>
    rw [List.nil_append]
    show needSpaceBy (y :: ys) = false
    rw [needSpaceBy, hy, spacesBy_spaces ys hys, Bool.and_false]
  | cons c cs =>
    rw [List.cons_append, needSpaceBy, needSpaceBy, spacesBy_append_sp hy hys]

/-! Locality of the three searched matchers under an all-whitespace suffix,
and of the write matcher under any suffix opening with whitespace. -/

theorem mWrite_append_eq {y : Char} {ys : List Char} (hy : isSpace y = true)
    (z : List Char) :
    anyTokenAt writeTokens (z ++ y :: ys) = anyTokenAt writeTokens z :=
  anyTokenAt_append_eq writeTokens
    (fun tk htk => ciEq_all_space (by revert tk htk; decide) hy)
    (space_not_word hy) z

theorem mLimit_append_sp {y : Char} {ys : List Char} (hy : isSpace y = true)
    (hys : ys.all isSpace = true) (z : List Char) :
    mLimit (z ++ y :: ys) = mLimit z :=
  swciTail_append_eq limitTok needSpace z
    (ciEq_all_space (by decide) hy) (needSpace_append_sp hy hys)

theorem mAgg_append_sp {y : Char} {ys : List Char} (hy : isSpace y = true)
    (hys : ys.all isSpace = true) (z : List Char) :
    mAgg (z ++ y :: ys) = mAgg z := by
  rw [mAgg, mAgg]
  rw [swci_append_eq ['c','o','u','n','t','('] (ciEq_all_space (by decide) hy)]
  rw [swciTail_append_eq groupTok needSpaceBy z
    (ciEq_all_space (by decide) hy) (needSpaceBy_append_sp hy hys)]
  rw [swci_append_eq ['s','u','m','('] (ciEq_all_space (by decide) hy)]
  rw [swci_append_eq ['a','v','g','('] (ciEq_all_space (by decide) hy)]
  rw [swci_append_eq ['m','a','x','('] (ciEq_all_space (by decide) hy)]
  rw [swci_append_eq ['m','i','n','('] (ciEq_all_space (by decide) hy)]

/-! Facts about the normalization step. -/

theorem hasSemi_append (a b : List Char) :
    hasSemi (a ++ b) = (hasSemi a || hasSemi b) := by
  simp [hasSemi]

theorem normText_head {sql : List Char} {c : Char} {cs : List Char}
    (h : normalizeText sql = c :: cs) : isSpace c = false := by
  obtain ⟨w1, hw1, -⟩ := rdropWhile_decomp isSemi (stripWS sql)
  obtain ⟨w2, hw2, -⟩ := rdropWhile_decomp isSpace (sql.dropWhile isSpace)
  have hstrip : stripWS sql = normalizeText sql ++ w1 := hw1
  have hdw : sql.dropWhile isSpace = (normalizeText sql ++ w1) ++ w2 := by
    rw [← hstrip]; exact hw2
  rw [h] at hdw
  simp only [List.cons_append] at hdw
  exact dropWhile_head_false sql c _ hdw

theorem normText_dropWhile (sql : List Char) :
    (normalizeText sql).dropWhile isSpace = normalizeText sql := by
  apply dropWhile_eq_self_of_head
  intro c cs h
  exact normText_head h

theorem rstripSemis_id {l : List Char} (h : hasSemi l = false) : rstripSemis l = l := by
  apply rdropWhile_id
  intro c cs hr
  have hc : c ∈ l := by
    rw [← List.mem_reverse, hr]
    exact List.mem_cons_self c cs
  exact any_false_mem h hc

theorem rdropWhile_head_stable (p : Char → Bool) {c : Char} {cs : List Char}
    (hc : p c = false) : ∃ ds, rdropWhile p (c :: cs) = c :: ds := by
  obtain ⟨ws, hws, hall⟩ := rdropWhile_decomp p (c :: cs)
  cases hd : rdropWhile p (c :: cs) with
  | nil =>
    rw [hd, List.nil_append] at hws
    rw [← hws, List.all_cons, Bool.and_eq_true] at hall
    rw [hall.1] at hc
    exact absurd hc (by decide)
  | cons d ds =>
    rw [hd, List.cons_append] at hws
    injection hws with h1 _
    subst h1
    exact ⟨ds, rfl⟩

theorem rdropWhile_append_limit (p : Char → Bool) (hp : p '0' = false) (s : List Char) :
    rdropWhile p (s ++ appendLimit) = s ++ appendLimit := by
  apply rdropWhile_id
  intro c cs hr
  rw [List.reverse_append] at hr
  rw [show appendLimit.reverse = '0' :: ['0','2',' ','T','I','M','I','L',' '] from by decide,
    List.cons_append] at hr
  injection hr with h1 _
  rw [← h1]
  exact hp

theorem normText_append_limit {c : Char} {cs : List Char} (hc : isSpace c = false) :
    normalizeText ((c :: cs) ++ appendLimit) = (c :: cs) ++ appendLimit := by
  rw [normalizeText, stripWS, List.cons_append,
    List.dropWhile_cons_of_neg (by rw [hc]; exact Bool.false_ne_true),
    ← List.cons_append,
    rdropWhile_append_limit isSpace (by decide) (c :: cs)]
  exact rdropWhile_append_limit isSemi (by decide) (c :: cs)

theorem normText_rstrip {c : Char} {cs : List Char} (hc : isSpace c = false)
    (hsemi : hasSemi (c :: cs) = false) :
    normalizeText (c :: cs) = rstripWS (c :: cs) := by
  rw [normalizeText, stripWS,
    List.dropWhile_cons_of_neg (by rw [hc]; exact Bool.false_ne_true)]
  apply rstripSemis_id
  obtain ⟨ws, hws, -⟩ := rdropWhile_decomp isSpace (c :: cs)
  rw [hws, hasSemi_append] at hsemi
  cases hrd : hasSemi (rdropWhile isSpace (c :: cs)) with
  | false => rfl
  | true => rw [hrd, Bool.true_or] at hsemi; exact hsemi

/-! Concrete facts about the appended limit clause. -/

theorem appendLimit_no_write : ∀ p, searchWB (anyTokenAt writeTokens) p appendLimit = false := by
  intro p; cases p <;> decide

theorem appendLimit_has_limit : ∀ p, searchWB mLimit p appendLimit = true := by
  intro p; cases p <;> decide

theorem appendLimit_no_semi : hasSemi appendLimit = false := by decide

/-! Evaluation and inversion helpers for the admission filter. -/

theorem admit_rejected_write (sql : List Char)
    (hW : hasWriteKw (normalizeText sql) = true) :
    admission sql = .rejected .writeOperationForbidden := by
  unfold admission
  rw [if_pos hW]

theorem admit_rejected_multi (sql : List Char)
    (hW : hasWriteKw (normalizeText sql) = false)
    (hS : hasSemi (normalizeText sql) = true) :
    admission sql = .rejected .multipleStatementsForbidden := by
  unfold admission
  rw [if_neg (by simp [hW]), if_pos hS]

theorem admit_rejected_select (sql : List Char)
    (hW : hasWriteKw (normalizeText sql) = false)
    (hS : hasSemi (normalizeText sql) = false)
    (hSel : startsSelect (normalizeText sql) = false) :
    admission sql = .rejected .onlySelectAllowed := by
  unfold admission
  rw [if_neg (by simp [hW]), if_neg (by simp [hS]), if_pos hSel]

theorem admit_accepted_append (sql : List Char)
    (hW : hasWriteKw (normalizeText sql) = false)
    (hS : hasSemi (normalizeText sql) = false)
    (hSel : startsSelect (normalizeText sql) = true)
    (hL : hasLimit (normalizeText sql) = false)
    (hA : hasAgg (normalizeText sql) = false) :
    admission sql = .accepted (normalizeText sql ++ appendLimit) := by
  unfold admission
  rw [if_neg (by simp [hW]), if_neg (by simp [hS]), if_neg (by simp [hSel]),
    if_pos ⟨hL, hA⟩]

theorem admit_accepted_plain (sql : List Char)
    (hW : hasWriteKw (normalizeText sql) = false)
    (hS : hasSemi (normalizeText sql) = false)
    (hSel : startsSelect (normalizeText sql) = true)
    (hor : hasLimit (normalizeText sql) = true ∨ hasAgg (normalizeText sql) = true) :
    admission sql = .accepted (normalizeText sql) := by
  unfold admission
  rw [if_neg (by simp [hW]), if_neg (by simp [hS]), if_neg (by simp [hSel]),
    if_neg (by rcases hor with h | h <;> simp [h])]

theorem admit_accepted_inv {sql t : List Char} (h : admission sql = .accepted t) :
    hasWriteKw (normalizeText sql) = false ∧ hasSemi (normalizeText sql) = false ∧
    startsSelect (normalizeText sql) = true ∧
    ((hasLimit (normalizeText sql) = false ∧ hasAgg (normalizeText sql) = false ∧
        t = normalizeText sql ++ appendLimit) ∨
      ((hasLimit (normalizeText sql) = true ∨ hasAgg (normalizeText sql) = true) ∧
        t = normalizeText sql)) := by
  unfold admission at h
  split at h
  · exact absurd h (by simp)
  next hw =>
    split at h
    · exact absurd h (by simp)
    next hs =>
      split at h
      · exact absurd h (by simp)
      next hsel =>
        rw [Bool.not_eq_true] at hw
        rw [Bool.not_eq_true] at hs
        rw [Bool.not_eq_false] at hsel
        split at h
        next hb =>
          injection h with ht
          exact ⟨hw, hs, hsel, Or.inl ⟨hb.1, hb.2, ht.symm⟩⟩
        next hb =>
          injection h with ht
          have hor : hasLimit (normalizeText sql) = true ∨
              hasAgg (normalizeText sql) = true := by
            cases hL : hasLimit (normalizeText sql) with
            | true => exact Or.inl rfl
            | false =>
              cases hA : hasAgg (normalizeText sql) with
              | true => exact Or.inr rfl
              | false => exact absurd ⟨hL, hA⟩ hb
          exact ⟨hw, hs, hsel, Or.inr ⟨hor, ht.symm⟩⟩

theorem rstripWS_def (l : List Char) : rstripWS l = rdropWhile isSpace l := rfl

theorem appendLimit_cons :
    appendLimit = ' ' :: ['L','I','M','I','T',' ','2','0','0'] := rfl

theorem hasWriteKw_appendLimit_eq (z : List Char) :
    hasWriteKw (z ++ appendLimit) = hasWriteKw z :=
  searchWB_append_eq _ appendLimit mWrite_empty appendLimit_no_write
    (fun w _ => mWrite_append_eq (by decide) w) z true

theorem hasLimit_appendLimit_true (z : List Char) :
    hasLimit (z ++ appendLimit) = true :=
  searchWB_append_true mLimit appendLimit appendLimit_has_limit z true

theorem hasWriteKw_append_sp {y : Char} {ys : List Char} (hy : isSpace y = true)
    (hys : ys.all isSpace = true) (z : List Char) :
    hasWriteKw (z ++ y :: ys) = hasWriteKw z :=
  searchWB_append_eq _ (y :: ys) mWrite_empty
    (searchWB_spaces _ mWrite_empty (fun a zs ha => mWrite_space ha zs) (y :: ys)
      (by rw [List.all_cons, Bool.and_eq_true]; exact ⟨hy, hys⟩))
    (fun w _ => mWrite_append_eq hy w) z true

theorem hasLimit_append_sp {y : Char} {ys : List Char} (hy : isSpace y = true)
    (hys : ys.all isSpace = true) (z : List Char) :
    hasLimit (z ++ y :: ys) = hasLimit z :=
  searchWB_append_eq _ (y :: ys) mLimit_empty
    (searchWB_spaces _ mLimit_empty (fun a zs ha => mLimit_space ha zs) (y :: ys)
      (by rw [List.all_cons, Bool.and_eq_true]; exact ⟨hy, hys⟩))
    (fun w _ => mLimit_append_sp hy hys w) z true

theorem hasAgg_append_sp {y : Char} {ys : List Char} (hy : isSpace y = true)
    (hys : ys.all isSpace = true) (z : List Char) :
    hasAgg (z ++ y :: ys) = hasAgg z :=
  searchWB_append_eq _ (y :: ys) mAgg_empty
    (searchWB_spaces _ mAgg_empty (fun a zs ha => mAgg_space ha zs) (y :: ys)
      (by rw [List.all_cons, Bool.and_eq_true]; exact ⟨hy, hys⟩))
    (fun w _ => mAgg_append_sp hy hys w) z true

/-- Re-admission: the final text of an accepted verdict passes the filter
again, and the only change the second pass can make is to drop the
trailing whitespace that the semicolon strip of the first pass exposed. -/
theorem admission_again {sql t : List Char} (h : admission sql = .accepted t) :
    admission t = .accepted (rstripWS t) := by
  obtain ⟨hW, hS, hSel, hrest⟩ := admit_accepted_inv h
  cases hn : normalizeText sql with
  | nil =>
    rw [hn] at hSel
    exact absurd hSel (by decide)
  | cons c cs =>
    have hc : isSpace c = false := normText_head hn
    rw [hn] at hW hS hSel hrest
    have hcneg : ¬ isSpace c = true := by rw [hc]; exact Bool.false_ne_true
    have hSel0 : tokenAt selectTok (c :: cs) = true := by
      rw [startsSelect, List.dropWhile_cons_of_neg hcneg] at hSel
      exact hSel
    rcases hrest with ⟨hL, hA, ht⟩ | ⟨hor, ht⟩
    · -- the bounding rewrite fired: t ends with the appended limit clause
      subst ht
      have hrt : rstripWS ((c :: cs) ++ appendLimit) = (c :: cs) ++ appendLimit := by
        rw [rstripWS_def]
        exact rdropWhile_append_limit isSpace (by decide) (c :: cs)
      have hnormt : normalizeText ((c :: cs) ++ appendLimit) = (c :: cs) ++ appendLimit :=
        normText_append_limit hc
      have hW2 : hasWriteKw ((c :: cs) ++ appendLimit) = false := by
        rw [hasWriteKw_appendLimit_eq]
        exact hW
      have hS2 : hasSemi ((c :: cs) ++ appendLimit) = false := by
        rw [hasSemi_append, hS, appendLimit_no_semi]
        rfl
      have htokSel : ∀ a ∈ selectTok, ciEq a ' ' = false := by decide
      have hwsp : isWordChar ' ' = false := by decide
      have hSel2 : startsSelect ((c :: cs) ++ appendLimit) = true := by
        rw [startsSelect, List.cons_append, List.dropWhile_cons_of_neg hcneg,
          ← List.cons_append, appendLimit_cons,
          tokenAt_append_eq (c :: cs) htokSel hwsp]
        exact hSel0
      have hfin := admit_accepted_plain ((c :: cs) ++ appendLimit)
        (by rw [hnormt]; exact hW2) (by rw [hnormt]; exact hS2)
        (by rw [hnormt]; exact hSel2)
        (Or.inl (by rw [hnormt]; exact hasLimit_appendLimit_true (c :: cs)))
      rw [hrt, hfin, hnormt]
    · -- no rewrite: t is the normalized text, possibly with trailing whitespace
      subst ht
      obtain ⟨ws, hws, hall⟩ := rdropWhile_decomp isSpace (c :: cs)
      obtain ⟨ds, hds⟩ := rdropWhile_head_stable isSpace hc
      have hnorm : normalizeText (c :: cs) = rstripWS (c :: cs) := normText_rstrip hc hS
      cases hwse : ws with
      | nil =>
        rw [hwse, List.append_nil] at hws
        have hid : rstripWS (c :: cs) = c :: cs := by rw [rstripWS_def, ← hws]
        have hfin := admit_accepted_plain (c :: cs)
          (by rw [hnorm, hid]; exact hW)
          (by rw [hnorm, hid]; exact hS)
          (by rw [hnorm, hid]; exact hSel)
          (by rw [hnorm, hid]; exact hor)
        rw [hid, hfin, hnorm, hid]
      | cons y ws2 =>
        rw [hwse] at hws hall
        rw [List.all_cons, Bool.and_eq_true] at hall
        obtain ⟨hy, hall2⟩ := hall
        rw [hds] at hws
        have hW2 : hasWriteKw (c :: ds) = false := by
          rw [hws, hasWriteKw_append_sp hy hall2] at hW
          exact hW
        have hS2 : hasSemi (c :: ds) = false := by
          rw [hws, hasSemi_append] at hS
          cases hx : hasSemi (c :: ds) with
          | false => rfl
          | true => rw [hx, Bool.true_or] at hS; exact hS
        have htokSel : ∀ a ∈ selectTok, isSpace a.toLower = false := by decide
        have hSel2 : startsSelect (c :: ds) = true := by
          rw [hws, tokenAt_append_eq (c :: ds) (ciEq_all_space htokSel hy)
            (space_not_word hy)] at hSel0
          rw [startsSelect, List.dropWhile_cons_of_neg hcneg]
          exact hSel0
        have hor2 : hasLimit (c :: ds) = true ∨ hasAgg (c :: ds) = true := by
          rw [hws, hasLimit_append_sp hy hall2, hasAgg_append_sp hy hall2] at hor
          exact hor
        have hfin := admit_accepted_plain (c :: cs)
          (by rw [hnorm, rstripWS_def, hds]; exact hW2)
          (by rw [hnorm, rstripWS_def, hds]; exact hS2)
          (by rw [hnorm, rstripWS_def, hds]; exact hSel2)
          (by rw [hnorm, rstripWS_def, hds]; exact hor2)
        rw [hfin, hnorm]

/-! The claims. -/

/-- C1: for every candidate text that, after the step-1 normalization,
contains one of the tokens INSERT, UPDATE, DELETE, DROP, TRUNCATE, ALTER,
CREATE, REPLACE as a case-insensitive whole word bounded by non-identifier
characters, admission returns Rejected with reason WriteOperationForbidden,
surfaced as the string "ERROR: write operations are not allowed."; a
keyword occurring only as a substring of a longer identifier, such as a
column named updated_at, does not trigger this rejection. -/
theorem claim1_write_keyword_rejection :
    (∀ sql : List Char, hasWriteKw (normalizeText sql) = true →
      admission sql = .rejected .writeOperationForbidden) ∧
    renderReason .writeOperationForbidden =
      ("ERROR: write operations are not allowed.".toList) ∧
    admission ("SELECT updated_at FROM orders".toList) =
      .accepted ("SELECT updated_at FROM orders LIMIT 200".toList) :=
  ⟨admit_rejected_write, rfl, by decide⟩

/-- Witness for C1 at a concrete write statement. -/
theorem claim1_write_keyword_rejection_inst :
    admission ("DROP TABLE customers".toList) = .rejected .writeOperationForbidden :=
  claim1_write_keyword_rejection.1 ("DROP TABLE customers".toList) (by decide)

/-- C2 as frozen is false: step 1 strips ALL trailing semicolons, not at
most one, so a candidate ending in two semicolons is accepted rather than
rejected with MultipleStatementsForbidden. -/
theorem claim2_counterexample :
    admission ("SELECT 1;;".toList) = .accepted ("SELECT 1 LIMIT 200".toList) ∧
    admission ("SELECT 1;;".toList) ≠ .rejected .multipleStatementsForbidden :=
  ⟨by decide, by decide⟩

/-- C2 (amended): step 1 strips ALL trailing statement terminators from
the trimmed candidate (the normalized text never ends in a semicolon), and
any semicolon remaining after that strip causes
Rejected MultipleStatementsForbidden provided the write-keyword check did
not already fire; in particular "SELECT 1;;" has both semicolons stripped
and is accepted as "SELECT 1 LIMIT 200". -/
theorem claim2_strip_all_terminators :
    (∀ sql : List Char, ∃ k,
      stripWS sql = normalizeText sql ++ List.replicate k ';') ∧
    (∀ (sql : List Char) (c : Char),
      (normalizeText sql).getLast? = some c → c ≠ ';') ∧
    (∀ sql : List Char, hasWriteKw (normalizeText sql) = false →
      hasSemi (normalizeText sql) = true →
      admission sql = .rejected .multipleStatementsForbidden) ∧
    admission ("SELECT 1;;".toList) = .accepted ("SELECT 1 LIMIT 200".toList) := by
  refine ⟨?_, ?_, admit_rejected_multi, by decide⟩
  · intro sql
    obtain ⟨ws, hws, hall⟩ := rdropWhile_decomp isSemi (stripWS sql)
    refine ⟨ws.length, ?_⟩
    have hX : rdropWhile isSemi (stripWS sql) = normalizeText sql := rfl
    rw [hws, hX, ← all_eq_replicate ws hall]
  · intro sql c hlast
    have hX : normalizeText sql = rdropWhile isSemi (stripWS sql) := rfl
    rcases rdropWhile_last_false isSemi (stripWS sql) with hnil | ⟨c0, cs0, hcc, hc0⟩
    · rw [hX, hnil] at hlast
      exact absurd hlast (by simp)
    · rw [hX, hcc, List.getLast?_concat] at hlast
      injection hlast with hc1
      intro hcsemi
      rw [hc1, hcsemi] at hc0
      exact absurd hc0 (by decide)

/-- Witness for the amended C2 at a concrete chained statement. -/
theorem claim2_strip_all_terminators_inst :
    admission ("SELECT 1; SELECT 2".toList) = .rejected .multipleStatementsForbidden :=
  claim2_strip_all_terminators.2.2.1 ("SELECT 1; SELECT 2".toList) (by decide) (by decide)

/-- C3: every candidate that passes the write-keyword and
multiple-statement checks but whose normalized text does not begin with
the keyword SELECT (case-insensitive, leading whitespace ignored) is
rejected with OnlySelectAllowed, surfaced as
"ERROR: only SELECT statements are allowed.". -/
theorem claim3_only_select :
    (∀ sql : List Char, hasWriteKw (normalizeText sql) = false →
      hasSemi (normalizeText sql) = false →
      startsSelect (normalizeText sql) = false →
      admission sql = .rejected .onlySelectAllowed) ∧
    renderReason .onlySelectAllowed =
      ("ERROR: only SELECT statements are allowed.".toList) :=
  ⟨admit_rejected_select, rfl⟩

/-- Witness for C3 at a concrete non-SELECT statement. -/
theorem claim3_only_select_inst :
    admission ("PRAGMA table_info(orders)".toList) = .rejected .onlySelectAllowed :=
  claim3_only_select.1 ("PRAGMA table_info(orders)".toList)
    (by decide) (by decide) (by decide)

/-- C4: for every candidate passing checks 2 to 4, if the normalized text
has neither an explicit LIMIT clause nor an aggregate construct the
verdict is Accepted with " LIMIT 200" appended exactly once, and otherwise
Accepted with the normalized text unchanged; concretely
"SELECT id FROM customers" becomes "SELECT id FROM customers LIMIT 200"
and "SELECT count(*) FROM orders" is unchanged. -/
theorem claim4_bounding_rewrite :
    appendLimit = (" LIMIT 200".toList) ∧
    (∀ sql : List Char, hasWriteKw (normalizeText sql) = false →
      hasSemi (normalizeText sql) = false →
      startsSelect (normalizeText sql) = true →
      (hasLimit (normalizeText sql) = false → hasAgg (normalizeText sql) = false →
        admission sql = .accepted (normalizeText sql ++ appendLimit)) ∧
      ((hasLimit (normalizeText sql) = true ∨ hasAgg (normalizeText sql) = true) →
        admission sql = .accepted (normalizeText sql))) ∧
    admission ("SELECT id FROM customers".toList) =
      .accepted ("SELECT id FROM customers LIMIT 200".toList) ∧
    admission ("SELECT count(*) FROM orders".toList) =
      .accepted ("SELECT count(*) FROM orders".toList) :=
  ⟨rfl,
   fun sql hW hS hSel =>
     ⟨fun hL hA => admit_accepted_append sql hW hS hSel hL hA,
      fun hor => admit_accepted_plain sql hW hS hSel hor⟩,
   by decide, by decide⟩

/-- Witness for C4 at a concrete unbounded SELECT. -/
theorem claim4_bounding_rewrite_inst :
    admission ("SELECT email FROM customers".toList) =
      .accepted (normalizeText ("SELECT email FROM customers".toList) ++ appendLimit) :=
  ((claim4_bounding_rewrite.2.1 ("SELECT email FROM customers".toList)
    (by decide) (by decide) (by decide)).1 (by decide) (by decide))

/-- C5 as frozen is false: re-admitting an accepted final text does not
always return the exact same text, because the semicolon strip of the
first pass can expose trailing whitespace which the second pass trims:
"select count(*) ;" is accepted as "select count(*) " (trailing space),
and re-admitting that text yields "select count(*)". -/
theorem claim5_counterexample :
    admission ("select count(*) ;".toList) = .accepted ("select count(*) ".toList) ∧
    admission ("select count(*) ".toList) = .accepted ("select count(*)".toList) ∧
    ("select count(*) ".toList) ≠ ("select count(*)".toList) :=
  ⟨by decide, by decide, by decide⟩

/-- C5 (amended): re-admitting an Accepted finalText yields Accepted whose
text is finalText with its trailing whitespace removed, and nothing else
changes; " LIMIT 200" is never appended a second time, and any finalText
ending in the appended limit clause, which has no trailing whitespace, is
returned exactly. -/
theorem claim5_re_admission (sql t : List Char) (h : admission sql = .accepted t) :
    admission t = .accepted (rstripWS t) ∧
    (∀ u, t = u ++ appendLimit → admission t = .accepted t) := by
  refine ⟨admission_again h, ?_⟩
  intro u hu
  rw [admission_again h, hu, rstripWS_def, rdropWhile_append_limit isSpace (by decide) u]

/-- Witness for the amended C5 at a concrete rewritten text. -/
theorem claim5_re_admission_inst :
    admission ("SELECT id FROM customers LIMIT 200".toList) =
      .accepted (rstripWS ("SELECT id FROM customers LIMIT 200".toList)) :=
  (claim5_re_admission ("SELECT id FROM customers".toList)
    ("SELECT id FROM customers LIMIT 200".toList) (by decide)).1

/-- C6: the admission rules apply in the fixed order write-keyword check,
multiple-statement check, SELECT-prefix check, bounding rewrite, and the
first matching rule decides: a write keyword rejects regardless of the
later rules, a semicolon rejects only when no write keyword fired, and the
SELECT-prefix rejection fires only when both earlier checks passed;
"DELETE FROM orders WHERE id=1", which is both non-SELECT and contains a
write keyword, yields WriteOperationForbidden, not OnlySelectAllowed. -/
theorem claim6_rule_order :
    (∀ sql : List Char, hasWriteKw (normalizeText sql) = true →
      admission sql = .rejected .writeOperationForbidden) ∧
    (∀ sql : List Char, hasWriteKw (normalizeText sql) = false →
      hasSemi (normalizeText sql) = true →
      admission sql = .rejected .multipleStatementsForbidden) ∧
    (∀ sql : List Char, hasWriteKw (normalizeText sql) = false →
      hasSemi (normalizeText sql) = false →
      startsSelect (normalizeText sql) = false →
      admission sql = .rejected .onlySelectAllowed) ∧
    admission ("DELETE FROM orders WHERE id=1".toList) =
      .rejected .writeOperationForbidden ∧
    startsSelect (normalizeText ("DELETE FROM orders WHERE id=1".toList)) = false :=
  ⟨admit_rejected_write, admit_rejected_multi, admit_rejected_select,
   by decide, by decide⟩

/-- Witness for C6 at a concrete statement matching two rejection rules. -/
theorem claim6_rule_order_inst :
    admission ("DELETE FROM customers".toList) = .rejected .writeOperationForbidden :=
  claim6_rule_order.1 ("DELETE FROM customers".toList) (by decide)

theorem runTool_accepted {α : Type} (exec : List Char → ExecOutcome α)
    {sql t : List Char} (h : admission sql = .accepted t) :
    runTool exec sql =
      (match exec t with
       | .ok cols rows => RunResult.dict cols rows
       | .fail m => RunResult.str (("ERROR: ".toList) ++ m)) := by
  unfold runTool
  rw [h]

theorem runToolTraced_accepted {α : Type} (exec : List Char → ExecOutcome α)
    {sql t : List Char} (h : admission sql = .accepted t) :
    runToolTraced exec sql =
      (match exec t with
       | .ok cols rows => (RunResult.dict cols rows, [t])
       | .fail m => (RunResult.str (("ERROR: ".toList) ++ m), [t])) := by
  unfold runToolTraced
  rw [h]

/-- C7: the guardrail is total and converts every failure into a returned
value: every input maps to a verdict, a rejection returns the rejection
string, a successful execution returns the columns-and-rows payload, and a
failed execution returns the string "ERROR: " followed by the diagnostic,
so the run method never terminates by raising for any string input. -/
theorem claim7_total_and_wraps :
    ∀ (α : Type) (exec : List Char → ExecOutcome α) (sql : List Char),
      ((∃ t, admission sql = .accepted t) ∨ (∃ r, admission sql = .rejected r)) ∧
      ((∃ r, admission sql = .rejected r ∧ runTool exec sql = .str (renderReason r)) ∨
       (∃ t cols rows, admission sql = .accepted t ∧ exec t = .ok cols rows ∧
          runTool exec sql = .dict cols rows) ∨
       (∃ t m, admission sql = .accepted t ∧ exec t = .fail m ∧
          runTool exec sql = .str (("ERROR: ".toList) ++ m))) := by
  intro α exec sql
  constructor
  · cases h : admission sql with
    | accepted t => exact Or.inl ⟨t, rfl⟩
    | rejected r => exact Or.inr ⟨r, rfl⟩
  · cases h : admission sql with
    | rejected r =>
      exact Or.inl ⟨r, rfl, by unfold runTool; rw [h]⟩
    | accepted t =>
      cases he : exec t with
      | ok cols rows =>
        exact Or.inr (Or.inl ⟨t, cols, rows, rfl, he,
          by rw [runTool_accepted exec h, he]⟩)
      | fail m =>
        exact Or.inr (Or.inr ⟨t, m, rfl, he,
          by rw [runTool_accepted exec h, he]⟩)

/-- C8: a rejected candidate never reaches execution: on any rejection the
result is exactly the rejection string, the trace of statements handed to
the driver is empty, and the result does not depend on the execution
adapter at all; a statement is handed to the driver only for an accepted
verdict, and then exactly the accepted text once. -/
theorem claim8_rejected_no_execution :
    ∀ (α : Type) (exec : List Char → ExecOutcome α) (sql : List Char),
      (∀ r, admission sql = .rejected r →
        runToolTraced exec sql = (.str (renderReason r), []) ∧
        (∀ exec2 : List Char → ExecOutcome α, runTool exec sql = runTool exec2 sql)) ∧
      (∀ t, admission sql = .accepted t → (runToolTraced exec sql).2 = [t]) := by
  intro α exec sql
  constructor
  · intro r h
    constructor
    · unfold runToolTraced
      rw [h]
    · intro exec2
      unfold runTool
      rw [h]
  · intro t h
    rw [runToolTraced_accepted exec h]
    cases he : exec t <;> rfl

/-- Witness for C8 at a concrete rejected update statement. -/
theorem claim8_rejected_no_execution_inst :
    runToolTraced trivialExec ("UPDATE orders SET status = 0".toList) =
      (.str ("ERROR: write operations are not allowed.".toList), []) :=
  ((claim8_rejected_no_execution Unit trivialExec
    ("UPDATE orders SET status = 0".toList)).1 .writeOperationForbidden (by decide)).1

/-- C9: the guardrail logic of the two scripts is extensionally equal: the
run methods of 03_guardrailed_agent.py and 04_complex_queries.py compute
the same admission verdict, the same rewritten final text, and the same
result mapping on every input. -/
theorem claim9_scripts_equal :
    (∀ sql : List Char, admission sql = admission04 sql) ∧
    (∀ (α : Type) (exec : List Char → ExecOutcome α) (sql : List Char),
      runTool exec sql = runTool04 exec sql) :=
  ⟨fun _ => rfl, fun _ _ _ => rfl⟩

/-- C10: every accepted final text contains a row-limiting clause
LIMIT followed by an integer, or at least one aggregate construct; no
accepted text is simultaneously free of both. -/
theorem claim10_accepted_bounded (sql t : List Char)
    (h : admission sql = .accepted t) :
    hasLimit t = true ∨ hasAgg t = true := by
  obtain ⟨hW, hS, hSel, hrest⟩ := admit_accepted_inv h
  rcases hrest with ⟨hL, hA, ht⟩ | ⟨hor, ht⟩
  · subst ht
    exact Or.inl (hasLimit_appendLimit_true _)
  · subst ht
    exact hor

/-- Witness for C10 at a concrete accepted text. -/
theorem claim10_accepted_bounded_inst :
    hasLimit ("SELECT name FROM products LIMIT 200".toList) = true ∨
    hasAgg ("SELECT name FROM products LIMIT 200".toList) = true :=
  claim10_accepted_bounded ("SELECT name FROM products".toList)
    ("SELECT name FROM products LIMIT 200".toList) (by decide)
